import Mathlib

/-!
Shallow embedding of the JSONPath evaluator in `src/path/path.rs`.

Evaluation results are `Option (List Value)`: `some l` is the list of matched
(borrowed) nodes the Rust code returns, and `none` models a Rust panic.  The
only panic site in the embedded code is `Iterator::step_by`, which asserts
`step != 0` when the iterator is constructed inside `ArraySlice::process`.
-/

/-- Modelled from the spec: the external document model (serde_json `Value`),
a tagged union of Null/Bool/Number/String/Array/Object nodes.  Objects are
ordered key-value sequences with lookup by key. -/
inductive Value where
  | null
  | bool (b : Bool)
  | num (n : Int)
  | str (s : String)
  | arr (elems : List Value)
  | obj (entries : List (String × Value))
deriving Repr

/-- Embeds serde_json `Value::as_array`: `some` of the element list when the
node is an Array, `none` otherwise. -/
def Value.as_array : Value → Option (List Value)
  | .arr elems => some elems
  | _ => none

/-- Embeds serde_json `Value::as_object`: `some` of the entry list when the
node is an Object, `none` otherwise. -/
def Value.as_object : Value → Option (List (String × Value))
  | .obj entries => some entries
  | _ => none

/-- Embeds serde_json `Map::get`: lookup of the first entry with the given
key (object keys are unique, so first-match lookup is map lookup). -/
def mapGet (entries : List (String × Value)) (key : String) : Option Value :=
  match entries with
  | [] => none
  | (k, v) :: rest => if k = key then some v else mapGet rest key

/-- Embeds the `ArraySlice` struct of `path.rs` (`start_index`, `end_index`
are Rust `i32`, modelled as `Int`; `step` is `usize`, modelled as `Nat`). -/
structure ArraySlice where
  start_index : Int
  end_index : Int
  step : Nat
deriving Repr

/-- Embeds `ArraySlice::end` (`end` is a Lean keyword, hence `endPos`):
normalize the end bound against `len`, `None` when out of range. -/
def ArraySlice.endPos (a : ArraySlice) (len : Int) : Option Nat :=
  if a.end_index ≥ 0 then
    if a.end_index > len then none else some a.end_index.toNat
  else
    if a.end_index < len * (-1) then none else some (len - a.end_index * (-1)).toNat

/-- Embeds `ArraySlice::start`: normalize the start bound against `len`,
`None` when out of range. -/
def ArraySlice.start (a : ArraySlice) (len : Int) : Option Nat :=
  if a.start_index ≥ 0 then
    if a.start_index > len then none else some a.start_index.toNat
  else
    if a.start_index < len * (-1) then none else some (len - a.start_index * (-1)).toNat

/-- Embeds the index sequence of Rust `(s..e).step_by(st)` for `st ≥ 1`:
the indices `s, s + st, s + 2·st, …` strictly below `e`, in ascending order.
(The `0 < st` guard only makes the recursion total; `ArraySlice.process`
never calls it with `st = 0`, since `step_by` panics there first.) -/
def stepIndices (s e st : Nat) : List Nat :=
  if _h : s < e ∧ 0 < st then s :: stepIndices (s + st) e st else []
termination_by e - s
decreasing_by omega

/-- Embeds `ArraySlice::process`.  `none` models the `step_by` panic on
`step = 0`, which Rust raises as soon as both bounds normalize; otherwise the
loop collects `elements.get(idx)` for each generated index. -/
def ArraySlice.process (a : ArraySlice) (elements : List Value) : Option (List Value) :=
  let len : Int := elements.length
  match a.start len, a.endPos len with
  | some start_idx, some end_idx =>
      if a.step = 0 then none
      else some ((stepIndices start_idx end_idx a.step).filterMap (fun idx => elements[idx]?))
  | _, _ => some []

/-- The closed set of selector shapes built by `process_path`: `EmptyPath`,
`RootPointer`, `ArraySlice`, `ArrayIndex`, `ObjectField` and `Chain` from
`path.rs`, as a tagged union (the Rust code uses trait objects over this same
closed set). -/
inductive PathInst where
  | empty
  | rootPointer (root : Value)
  | arraySlice (a : ArraySlice)
  | arrayIndex (index : Nat)
  | objectField (key : String)
  | chain (chain : List PathInst)

mutual

/-- Embeds the `Path::path` implementations of every selector.  The `chain`
case embeds `Chain`: fold the step list left to right starting from the
one-element vector `[data]`. -/
def PathInst.path : PathInst → Value → Option (List Value)
  | .empty, data => some [data]
  | .rootPointer root, _data => some [root]
  | .arraySlice a, data =>
      match data.as_array with
      | some elems => a.process elems
      | none => some []
  | .arrayIndex index, data =>
      match data.as_array with
      | some elems =>
          match elems[index]? with
          | some e => some [e]
          | none => some []
      | none => some []
  | .objectField key, data =>
      match data.as_object with
      | some fileds =>
          match mapGet fileds key with
          | some e => some [e]
          | none => some []
      | none => some []
  | .chain ps, data => pathChain ps [data]
termination_by p _ => (sizeOf p, 0, 0)

/-- Embeds one fold step of `Chain::path`: `inter_res.iter().flat_map(|d| path.path(d))`,
concatenating the output of the selector on each accumulated element in order. -/
def pathFlat : PathInst → List Value → Option (List Value)
  | _, [] => some []
  | p, d :: ds => do
      let r ← PathInst.path p d
      let rs ← pathFlat p ds
      some (r ++ rs)
termination_by p l => (sizeOf p, 1, sizeOf l)

/-- Embeds the fold of `Chain::path` over the list of step selectors, with
accumulator `acc`. -/
def pathChain : List PathInst → List Value → Option (List Value)
  | [], acc => some acc
  | p :: ps, acc => do
      let acc2 ← pathFlat p acc
      pathChain ps acc2
termination_by ps _ => (sizeOf ps, 0, 0)

end

/-- Modelled from the spec: the `JsonPathIndex` enum of the (unseen)
`structures.rs` — SingleIndex (`usize`, per `ArrayIndex::new`), SliceIndex
(`i32, i32, usize` per `ArraySlice::new`), and a catch-all for the variants
`process_path_index` does not recognize. -/
inductive JsonPathIndex where
  | single (index : Nat)
  | slice (s e : Int) (step : Nat)
  | unrecognized

/-- Modelled from the spec: the `JsonPath` expression enum of the (unseen)
`structures.rs` — Root, Field(name), Path(sequence of steps),
Index(name, index spec), and a catch-all for unrecognized variants. -/
inductive JsonPath where
  | root
  | field (key : String)
  | path (chain : List JsonPath)
  | index (key : String) (i : JsonPathIndex)
  | unrecognized

/-- Embeds `process_path_index`: dispatch an index spec to a selector;
unrecognized specs fall back to `EmptyPath`. -/
def process_path_index (json_path_index : JsonPathIndex) (_root : Value) : PathInst :=
  match json_path_index with
  | .single index => .arrayIndex index
  | .slice s e step => .arraySlice ⟨s, e, step⟩
  | .unrecognized => .empty

mutual

/-- Embeds `process_path`: dispatch an expression node to a selector bound to
`root`.  `Index(key, i)` becomes the two-step chain `Chain::from_index`;
unrecognized nodes fall back to `EmptyPath`. -/
def process_path (json_path : JsonPath) (root : Value) : PathInst :=
  match json_path with
  | .root => .rootPointer root
  | .field key => .objectField key
  | .path chain => .chain (process_list chain root)
  | .index key i => .chain [.objectField key, process_path_index i root]
  | .unrecognized => .empty

/-- Embeds `Chain::from`: build the selector for each step of a `Path` node. -/
def process_list (chain : List JsonPath) (root : Value) : List PathInst :=
  match chain with
  | [] => []
  | p :: ps => process_path p root :: process_list ps root

end

/-- The top-level evaluation the spec exposes: build the selector tree from
the expression with the document as root, then apply it to the document. -/
def evaluate (expression : JsonPath) (document : Value) : Option (List Value) :=
  (process_path expression document).path document

/-! ### Helper lemmas about the embedded definitions -/

theorem stepIndices_eq_nil {s e st : Nat} (h : ¬ (s < e ∧ 0 < st)) :
    stepIndices s e st = [] := by
  rw [stepIndices]; simp [h]

theorem stepIndices_eq_cons {s e st : Nat} (h : s < e ∧ 0 < st) :
    stepIndices s e st = s :: stepIndices (s + st) e st := by
  rw [stepIndices]; simp [h]

theorem stepIndices_lt (s e st : Nat) : ∀ i ∈ stepIndices s e st, i < e := by
  induction s, e, st using stepIndices.induct with
  | case1 s e st h ih =>
      rw [stepIndices_eq_cons h]
      intro i hi
      rcases List.mem_cons.mp hi with h0 | h1
      · omega
      · exact ih i h1
  | case2 s e st h =>
      rw [stepIndices_eq_nil h]
      intro i hi
      exact absurd hi (List.not_mem_nil i)

theorem stepIndices_le (s e st : Nat) : ∀ i ∈ stepIndices s e st, s ≤ i := by
  induction s, e, st using stepIndices.induct with
  | case1 s e st h ih =>
      rw [stepIndices_eq_cons h]
      intro i hi
      rcases List.mem_cons.mp hi with h0 | h1
      · omega
      · have := ih i h1
        omega
  | case2 s e st h =>
      rw [stepIndices_eq_nil h]
      intro i hi
      exact absurd hi (List.not_mem_nil i)

theorem stepIndices_sorted (s e st : Nat) : (stepIndices s e st).Pairwise (· < ·) := by
  induction s, e, st using stepIndices.induct with
  | case1 s e st h ih =>
      rw [stepIndices_eq_cons h]
      refine List.Pairwise.cons ?_ ih
      intro i hi
      have := stepIndices_le (s + st) e st i hi
      omega
  | case2 s e st h =>
      rw [stepIndices_eq_nil h]
      exact List.Pairwise.nil

theorem stepIndices_mem (s e st : Nat) :
    0 < st → ∀ i, (i ∈ stepIndices s e st ↔ (∃ k, i = s + k * st) ∧ i < e) := by
  induction s, e, st using stepIndices.induct with
  | case1 s e st h ih =>
      intro hst i
      rw [stepIndices_eq_cons h, List.mem_cons]
      constructor
      · rintro (h0 | h1)
        · exact ⟨⟨0, by omega⟩, by omega⟩
        · obtain ⟨⟨k, hk⟩, hlt⟩ := (ih hst i).mp h1
          refine ⟨⟨k + 1, ?_⟩, hlt⟩
          rw [hk]; ring
      · rintro ⟨⟨k, hk⟩, hlt⟩
        match k with
        | 0 => left; omega
        | k + 1 =>
            right
            refine (ih hst i).mpr ⟨⟨k, ?_⟩, hlt⟩
            rw [hk]; ring
  | case2 s e st h =>
      intro hst i
      rw [stepIndices_eq_nil h]
      simp only [List.not_mem_nil, false_iff]
      rintro ⟨⟨k, hk⟩, hlt⟩
      have hx : s ≤ s + k * st := Nat.le_add_right s (k * st)
      rw [← hk] at hx
      omega

theorem stepIndices_step_one : ∀ (d s e : Nat), e - s = d → stepIndices s e 1 = List.range' s (e - s) := by
  intro d
  induction d with
  | zero =>
      intro s e hd
      rw [@stepIndices_eq_nil s e 1 (by omega), hd]
      rfl
  | succ d ih =>
      intro s e hd
      rw [@stepIndices_eq_cons s e 1 (by omega), hd, List.range'_succ, ih (s + 1) e (by omega)]
      have h2 : e - (s + 1) = d := by omega
      rw [h2]

theorem map_getD_range (l : List Value) :
    (List.range l.length).map (fun i => l.getD i Value.null) = l := by
  induction l with
  | nil => simp
  | cons a l ih =>
      rw [List.length_cons, List.range_succ_eq_map, List.map_cons, List.map_map]
      have hc : ((fun i => (a :: l).getD i Value.null) ∘ Nat.succ)
          = fun i => l.getD i Value.null := by
        funext i
        simp [List.getD_cons_succ]
      rw [List.getD_cons_zero, hc, ih]

theorem filterMap_getElem_eq_map (elems : List Value) (L : List Nat)
    (h : ∀ i ∈ L, i < elems.length) :
    L.filterMap (fun idx => elems[idx]?) = L.map (fun i => elems.getD i Value.null) := by
  induction L with
  | nil => simp
  | cons i L ih =>
      have hi := h i (by simp)
      rw [List.filterMap_cons, List.map_cons, List.getElem?_eq_getElem hi]
      rw [ih (fun j hj => h j (by simp [hj]))]
      rw [List.getD_eq_getElem?_getD, List.getElem?_eq_getElem hi]
      rfl

theorem endPos_le (a : ArraySlice) (n : Nat) (e : Nat)
    (h : a.endPos (n : Int) = some e) : e ≤ n := by
  unfold ArraySlice.endPos at h
  split at h
  · split at h
    · exact absurd h (by simp)
    · simp only [Option.some.injEq] at h
      omega
  · split at h
    · exact absurd h (by simp)
    · simp only [Option.some.injEq] at h
      omega

/-- The spec-side flat map over an option-valued selector: apply `f` to each
element in order and concatenate the outputs, propagating a panic. -/
def flatMapOpt (f : Value → Option (List Value)) : List Value → Option (List Value)
  | [] => some []
  | d :: ds => do
      let r ← f d
      let rs ← flatMapOpt f ds
      some (r ++ rs)

theorem pathFlat_eq_flatMapOpt (p : PathInst) (l : List Value) :
    pathFlat p l = flatMapOpt (PathInst.path p) l := by
  induction l with
  | nil => rw [pathFlat, flatMapOpt]
  | cons d ds ih => rw [pathFlat, flatMapOpt, ih]

theorem foldl_bind_none (ps : List PathInst) :
    ps.foldl (fun o p => o.bind (flatMapOpt (PathInst.path p))) none = none := by
  induction ps with
  | nil => rfl
  | cons p ps ih => rw [List.foldl_cons, Option.none_bind, ih]

theorem pathChain_eq_foldl (ps : List PathInst) : ∀ acc,
    pathChain ps acc = ps.foldl (fun o p => o.bind (flatMapOpt (PathInst.path p))) (some acc) := by
  induction ps with
  | nil => intro acc; rw [pathChain, List.foldl_nil]
  | cons p ps ih =>
      intro acc
      rw [pathChain, List.foldl_cons, Option.some_bind, ← pathFlat_eq_flatMapOpt]
      cases hpf : pathFlat p acc with
      | none => simp [foldl_bind_none]
      | some acc2 => simp [ih]

mutual

/-- Every `ArraySlice` selector reachable inside this selector tree has a
nonzero step (the condition under which `step_by` cannot panic). -/
def noZeroP : PathInst → Bool
  | .empty => true
  | .rootPointer _ => true
  | .arraySlice a => decide (a.step ≠ 0)
  | .arrayIndex _ => true
  | .objectField _ => true
  | .chain ps => noZeroPList ps

/-- List version of `noZeroP`. -/
def noZeroPList : List PathInst → Bool
  | [] => true
  | p :: ps => noZeroP p && noZeroPList ps

end

/-- The index spec carries no zero slice step. -/
def noZeroIdx : JsonPathIndex → Bool
  | .single _ => true
  | .slice _ _ st => decide (st ≠ 0)
  | .unrecognized => true

mutual

/-- Every `SliceIndex` in the expression tree has a nonzero step. -/
def noZeroStep : JsonPath → Bool
  | .root => true
  | .field _ => true
  | .path chain => noZeroStepList chain
  | .index _ i => noZeroIdx i
  | .unrecognized => true

/-- List version of `noZeroStep`. -/
def noZeroStepList : List JsonPath → Bool
  | [] => true
  | p :: ps => noZeroStep p && noZeroStepList ps

end

theorem noZeroPList_mem {ps : List PathInst} (h : noZeroPList ps = true) :
    ∀ p ∈ ps, noZeroP p = true := by
  induction ps with
  | nil => intro p hp; exact absurd hp (List.not_mem_nil p)
  | cons q qs ih =>
      rw [noZeroPList, Bool.and_eq_true] at h
      intro p hp
      rcases List.mem_cons.mp hp with h0 | h1
      · rw [h0]; exact h.1
      · exact ih h.2 p h1

theorem pathFlat_isSome (p : PathInst) (hp : ∀ d, (PathInst.path p d).isSome) :
    ∀ l, (pathFlat p l).isSome := by
  intro l
  induction l with
  | nil => rw [pathFlat]; rfl
  | cons d ds ih =>
      obtain ⟨r, hr⟩ := Option.isSome_iff_exists.mp (hp d)
      obtain ⟨rs, hrs⟩ := Option.isSome_iff_exists.mp ih
      rw [pathFlat, hr, hrs]
      rfl

theorem pathChain_isSome (ps : List PathInst)
    (hps : ∀ p ∈ ps, ∀ d, (PathInst.path p d).isSome) :
    ∀ acc, (pathChain ps acc).isSome := by
  induction ps with
  | nil => intro acc; rw [pathChain]; rfl
  | cons p ps ih =>
      intro acc
      obtain ⟨acc2, h2⟩ :=
        Option.isSome_iff_exists.mp (pathFlat_isSome p (hps p (by simp)) acc)
      rw [pathChain, h2]
      exact ih (fun q hq d => hps q (by simp [hq]) d) acc2

theorem path_isSome_of_noZeroP :
    ∀ p : PathInst, noZeroP p = true → ∀ d, (PathInst.path p d).isSome := by
  have main : ∀ (n : Nat) (p : PathInst), sizeOf p ≤ n → noZeroP p = true →
      ∀ d, (PathInst.path p d).isSome := by
    intro n
    induction n with
    | zero =>
        intro p hsz
        exfalso
        cases p <;> simp_arith at hsz
    | succ n ih =>
        intro p hsz hz d
        cases p with
        | empty => rw [PathInst.path]; rfl
        | rootPointer r => rw [PathInst.path]; rfl
        | arraySlice a =>
            rw [noZeroP, decide_eq_true_eq] at hz
            rw [PathInst.path]
            cases d <;> simp only [Value.as_array]
            case arr elems =>
              rw [ArraySlice.process]
              rcases hs : a.start (elems.length : Int) with _ | s <;>
                rcases he : a.endPos (elems.length : Int) with _ | e <;>
                simp [hs, he, hz]
            all_goals rfl
        | arrayIndex i =>
            rw [PathInst.path]
            cases d <;> simp only [Value.as_array]
            case arr elems => cases elems[i]? <;> rfl
            all_goals rfl
        | objectField k =>
            rw [PathInst.path]
            cases d <;> simp only [Value.as_object]
            case obj entries => cases mapGet entries k <;> rfl
            all_goals rfl
        | chain ps =>
            rw [PathInst.path]
            rw [noZeroP] at hz
            apply pathChain_isSome
            intro p hp d2
            have hlt : sizeOf p < sizeOf ps := List.sizeOf_lt_of_mem hp
            have hps : sizeOf (PathInst.chain ps) = 1 + sizeOf ps := by simp
            exact ih p (by omega) (noZeroPList_mem hz p hp) d2
  intro p
  exact main (sizeOf p) p le_rfl

theorem noZeroP_process_path_index (i : JsonPathIndex) (root : Value)
    (h : noZeroIdx i = true) : noZeroP (process_path_index i root) = true := by
  cases i with
  | single j => rfl
  | slice s e st => exact h
  | unrecognized => rfl

theorem noZeroP_process_path :
    ∀ (jp : JsonPath) (root : Value), noZeroStep jp = true →
      noZeroP (process_path jp root) = true := by
  have main : ∀ n : Nat,
      (∀ (jp : JsonPath) (root : Value), sizeOf jp ≤ n → noZeroStep jp = true →
        noZeroP (process_path jp root) = true) ∧
      (∀ (l : List JsonPath) (root : Value), sizeOf l ≤ n → noZeroStepList l = true →
        noZeroPList (process_list l root) = true) := by
    intro n
    induction n with
    | zero =>
        constructor
        · intro jp root hsz
          exfalso
          cases jp <;> simp_arith at hsz
        · intro l root hsz
          exfalso
          cases l <;> simp_arith at hsz
    | succ n ih =>
        constructor
        · intro jp root hsz hz
          cases jp with
          | root => rfl
          | field k => rfl
          | path chain =>
              rw [process_path, noZeroP]
              have hc : sizeOf chain ≤ n := by
                have : sizeOf (JsonPath.path chain) = 1 + sizeOf chain := by simp
                omega
              exact ih.2 chain root hc hz
          | index k i =>
              rw [process_path, noZeroP, noZeroPList, noZeroPList, noZeroPList]
              rw [noZeroStep] at hz
              simp [noZeroP_process_path_index i root hz, noZeroP]
          | unrecognized => rfl
        · intro l root hsz hz
          cases l with
          | nil => rfl
          | cons p ps =>
              rw [process_list, noZeroPList]
              rw [noZeroStepList, Bool.and_eq_true] at hz
              have h1 : sizeOf p ≤ n := by
                have : sizeOf (p :: ps) = 1 + sizeOf p + sizeOf ps := by simp
                omega
              have h2 : sizeOf ps ≤ n := by
                have : sizeOf (p :: ps) = 1 + sizeOf p + sizeOf ps := by simp
                omega
              rw [ih.1 p root h1 hz.1, ih.2 ps root h2 hz.2]
              rfl
  intro jp root hz
  exact (main (sizeOf jp)).1 jp root le_rfl hz

theorem path_chain_foldl (steps : List PathInst) (c : Value) :
    PathInst.path (.chain steps) c
      = steps.foldl (fun acc p => acc.bind (flatMapOpt (PathInst.path p))) (some [c]) := by
  rw [PathInst.path, pathChain_eq_foldl]

theorem path_chain_two (X Y : PathInst) (c : Value) :
    PathInst.path (.chain [X, Y]) c
      = (PathInst.path X c).bind (flatMapOpt (PathInst.path Y)) := by
  rw [path_chain_foldl]
  cases hx : PathInst.path X c with
  | none => simp [flatMapOpt, hx]
  | some r => simp [flatMapOpt, hx]

/-- C4: `Chain` evaluation is the left-to-right fold starting from the
single-element sequence `[context]`, each step replacing the accumulated
sequence by the element-major concatenation of its output on each element;
in particular a two-step chain `[X, Y]` on `c` concatenates `Y.path(m)` over
the elements `m` of `X.path(c)`. -/
theorem chain_fold_spec :
    (∀ (steps : List PathInst) (c : Value),
      PathInst.path (.chain steps) c
        = steps.foldl (fun acc p => acc.bind (flatMapOpt (PathInst.path p))) (some [c])) ∧
    (∀ (X Y : PathInst) (c : Value),
      PathInst.path (.chain [X, Y]) c
        = (PathInst.path X c).bind (flatMapOpt (PathInst.path Y))) :=
  ⟨path_chain_foldl, path_chain_two⟩

/-- C5: the selector built for an `Unrecognized` expression node is
`EmptyPath`, an identity pass-through returning `[context]` for every
context node, never an empty result. -/
theorem unrecognized_identity (root context : Value) :
    PathInst.path (process_path .unrecognized root) context = some [context] := by
  rw [process_path, PathInst.path]

/-- C10: a `Chain` with an empty step list evaluates to the one-element
sequence `[context]` for every context node: an empty chain is the identity
selector, not an empty match. -/
theorem empty_chain_identity (root context : Value) :
    PathInst.path (process_path (.path []) root) context = some [context] ∧
    PathInst.path (.chain []) context = some [context] := by
  constructor
  · rw [process_path, process_list, PathInst.path, pathChain]
  · rw [PathInst.path, pathChain]

/-- C6: `ObjectField(name)` returns `[context.field(name)]` when the context
is an Object containing the key, and the empty sequence when the key is
absent or the context is not an object; it never fails. -/
theorem field_selector_spec (key : String) :
    (∀ (entries : List (String × Value)) (v : Value), mapGet entries key = some v →
      PathInst.path (.objectField key) (.obj entries) = some [v]) ∧
    (∀ entries : List (String × Value), mapGet entries key = none →
      PathInst.path (.objectField key) (.obj entries) = some []) ∧
    (∀ context : Value, context.as_object = none →
      PathInst.path (.objectField key) context = some []) := by
  refine ⟨?_, ?_, ?_⟩
  · intro entries v hv
    simp [PathInst.path, Value.as_object, hv]
  · intro entries hv
    simp [PathInst.path, Value.as_object, hv]
  · intro context hc
    simp [PathInst.path, hc]

theorem field_selector_spec_witness :
    PathInst.path (.objectField "a") (.obj [("a", Value.num 1)]) = some [Value.num 1] ∧
    PathInst.path (.objectField "a") (.obj [("b", Value.num 2)]) = some [] ∧
    PathInst.path (.objectField "a") (.arr [Value.num 3]) = some [] :=
  ⟨(field_selector_spec "a").1 _ _ (by simp [mapGet]),
   (field_selector_spec "a").2.1 _ (by simp [mapGet]),
   (field_selector_spec "a").2.2 _ (by simp [Value.as_object])⟩

/-- C7: `ArrayIndex(i)` returns `[context.element(i)]` when the context is an
Array and `i < length`, and the empty sequence when `i` is out of range or
the context is not an array. -/
theorem index_selector_spec (i : Nat) :
    (∀ elems : List Value, i < elems.length →
      PathInst.path (.arrayIndex i) (.arr elems) = some [elems.getD i Value.null]) ∧
    (∀ elems : List Value, elems.length ≤ i →
      PathInst.path (.arrayIndex i) (.arr elems) = some []) ∧
    (∀ context : Value, context.as_array = none →
      PathInst.path (.arrayIndex i) context = some []) := by
  refine ⟨?_, ?_, ?_⟩
  · intro elems hi
    rw [List.getD_eq_getElem?_getD, List.getElem?_eq_getElem hi]
    simp [PathInst.path, Value.as_array, List.getElem?_eq_getElem hi]
  · intro elems hi
    simp [PathInst.path, Value.as_array, List.getElem?_eq_none hi]
  · intro context hc
    simp [PathInst.path, hc]

theorem index_selector_spec_witness :
    PathInst.path (.arrayIndex 1) (.arr [Value.num 4, Value.num 5]) = some [Value.num 5] ∧
    PathInst.path (.arrayIndex 2) (.arr [Value.num 4, Value.num 5]) = some [] ∧
    PathInst.path (.arrayIndex 1) (.obj []) = some [] := by
  refine ⟨?_, ?_, ?_⟩
  · have h := (index_selector_spec 1).1 [Value.num 4, Value.num 5] (by decide)
    simpa using h
  · exact (index_selector_spec 2).2.1 [Value.num 4, Value.num 5] (by decide)
  · exact (index_selector_spec 1).2.2 _ (by simp [Value.as_array])

/-- C9: the selector the dispatcher builds for `Index(name, spec)` evaluates,
on every context, exactly as the two-step chain of `ObjectField(name)`
followed by the selector built for `spec`: the output of the field selector is
flat-mapped through the index selector. -/
theorem indexed_field_two_step (name : String) (spec : JsonPathIndex) (root context : Value) :
    PathInst.path (process_path (.index name spec) root) context
      = (PathInst.path (.objectField name) context).bind
          (flatMapOpt (PathInst.path (process_path_index spec root))) := by
  rw [process_path]
  exact path_chain_two _ _ context

theorem process_of_bound_none (a : ArraySlice) (elems : List Value)
    (h : a.start (elems.length : Int) = none ∨ a.endPos (elems.length : Int) = none) :
    a.process elems = some [] := by
  rcases h with h | h
  · simp [ArraySlice.process, h]
  · rcases hs : a.start (elems.length : Int) with _ | s <;>
      simp [ArraySlice.process, hs, h]

/-- C2: normalizing a slice bound `b` against `len` yields `b` (valid iff
`b ≤ len`) for `b ≥ 0` and `len − |b|` (valid iff `|b| ≤ len`) for `b < 0`,
for both the start and the end bound; and when either bound fails to
normalize, the slice applied to the array returns the empty sequence. -/
theorem slice_bound_normalization :
    (∀ (b e : Int) (st : Nat) (n : Nat),
      (ArraySlice.mk b e st).start (n : Int)
        = if 0 ≤ b then (if b ≤ (n : Int) then some b.toNat else none)
          else (if b.natAbs ≤ n then some (n - b.natAbs) else none)) ∧
    (∀ (b s : Int) (st : Nat) (n : Nat),
      (ArraySlice.mk s b st).endPos (n : Int)
        = if 0 ≤ b then (if b ≤ (n : Int) then some b.toNat else none)
          else (if b.natAbs ≤ n then some (n - b.natAbs) else none)) ∧
    (∀ (s e : Int) (st : Nat) (elems : List Value),
      ((ArraySlice.mk s e st).start (elems.length : Int) = none ∨
       (ArraySlice.mk s e st).endPos (elems.length : Int) = none) →
      PathInst.path (.arraySlice ⟨s, e, st⟩) (.arr elems) = some []) := by
  refine ⟨?_, ?_, ?_⟩
  · intro b e st n
    simp only [ArraySlice.start]
    split_ifs <;> first
      | rfl
      | omega
      | (congr 1; omega)
  · intro b s st n
    simp only [ArraySlice.endPos]
    split_ifs <;> first
      | rfl
      | omega
      | (congr 1; omega)
  · intro s e st elems h
    simp only [PathInst.path, Value.as_array]
    exact process_of_bound_none _ _ h

theorem slice_bound_normalization_witness :
    (ArraySlice.mk (-2) 0 1).start ((5 : Nat) : Int) = some 3 ∧
    PathInst.path (.arraySlice ⟨2, 0, 1⟩) (.arr [Value.num 0]) = some [] :=
  ⟨by rw [slice_bound_normalization.1 (-2) 0 1 5]; rfl,
   slice_bound_normalization.2.2 2 0 1 [Value.num 0] (Or.inl rfl)⟩

theorem path_arraySlice_map (s e : Int) (st : Nat) (elems : List Value) (s_norm e_norm : Nat)
    (hs : (ArraySlice.mk s e st).start (elems.length : Int) = some s_norm)
    (he : (ArraySlice.mk s e st).endPos (elems.length : Int) = some e_norm)
    (hst : 1 ≤ st) :
    PathInst.path (.arraySlice ⟨s, e, st⟩) (.arr elems)
      = some ((stepIndices s_norm e_norm st).map (fun i => elems.getD i Value.null)) := by
  have hlen : ∀ i ∈ stepIndices s_norm e_norm st, i < elems.length := by
    intro i hi
    have h1 := stepIndices_lt s_norm e_norm st i hi
    have h2 := endPos_le _ _ _ he
    omega
  simp only [PathInst.path, Value.as_array]
  rw [ArraySlice.process, hs, he]
  show (if st = 0 then none
      else some ((stepIndices s_norm e_norm st).filterMap (fun idx => elems[idx]?)))
    = some ((stepIndices s_norm e_norm st).map (fun i => elems.getD i Value.null))
  rw [if_neg (by omega : ¬ st = 0)]
  rw [filterMap_getElem_eq_map elems _ hlen]

/-- C3: with both bounds normalized and `step ≥ 1`, the slice selector on an
array returns exactly the elements at indices `start_norm, start_norm+step, …`
strictly below `end_norm` (those index walks are characterized and strictly
increasing); `Slice(0, n, 1)` on an array of length `n` returns the whole
array in order; on a non-array context the result is empty. -/
theorem slice_step_semantics :
    (∀ (s e : Int) (st : Nat) (elems : List Value) (s_norm e_norm : Nat),
      (ArraySlice.mk s e st).start (elems.length : Int) = some s_norm →
      (ArraySlice.mk s e st).endPos (elems.length : Int) = some e_norm →
      1 ≤ st →
      PathInst.path (.arraySlice ⟨s, e, st⟩) (.arr elems)
        = some ((stepIndices s_norm e_norm st).map (fun i => elems.getD i Value.null))) ∧
    (∀ (s_norm e_norm st : Nat), 1 ≤ st → ∀ i : Nat,
      (i ∈ stepIndices s_norm e_norm st ↔ (∃ k, i = s_norm + k * st) ∧ i < e_norm)) ∧
    (∀ s_norm e_norm st : Nat, (stepIndices s_norm e_norm st).Pairwise (· < ·)) ∧
    (∀ elems : List Value,
      PathInst.path (.arraySlice ⟨0, (elems.length : Int), 1⟩) (.arr elems) = some elems) ∧
    (∀ (s e : Int) (st : Nat) (context : Value), context.as_array = none →
      PathInst.path (.arraySlice ⟨s, e, st⟩) context = some []) := by
  refine ⟨path_arraySlice_map, ?_, ?_, ?_, ?_⟩
  · intro s_norm e_norm st hst i
    exact stepIndices_mem s_norm e_norm st hst i
  · intro s_norm e_norm st
    exact stepIndices_sorted s_norm e_norm st
  · intro elems
    have hs : (ArraySlice.mk 0 (elems.length : Int) 1).start (elems.length : Int)
        = some 0 := by
      simp [ArraySlice.start]
    have he : (ArraySlice.mk 0 (elems.length : Int) 1).endPos (elems.length : Int)
        = some elems.length := by
      simp [ArraySlice.endPos]
    rw [path_arraySlice_map 0 (elems.length : Int) 1 elems 0 elems.length hs he le_rfl]
    rw [stepIndices_step_one (elems.length - 0) 0 elems.length rfl]
    rw [Nat.sub_zero, ← List.range_eq_range', map_getD_range]
  · intro s e st context hc
    simp [PathInst.path, hc]

theorem slice_step_semantics_witness :
    PathInst.path (.arraySlice ⟨0, 3, 2⟩) (.arr [Value.num 5, Value.num 6, Value.num 7])
      = some [Value.num 5, Value.num 7] := by
  have h := slice_step_semantics.1 0 3 2 [Value.num 5, Value.num 6, Value.num 7] 0 3
    rfl rfl (by omega)
  rw [h]
  rw [stepIndices_eq_cons (by omega), stepIndices_eq_cons (by omega),
    stepIndices_eq_nil (by omega)]
  rfl

theorem process_congr (a b : ArraySlice) (elems : List Value)
    (hs : a.start (elems.length : Int) = b.start (elems.length : Int))
    (he : a.endPos (elems.length : Int) = b.endPos (elems.length : Int))
    (hst : a.step = b.step) : a.process elems = b.process elems := by
  rw [ArraySlice.process, ArraySlice.process, hs, he, hst]

/-- C8: negative-bound equivalence — for `0 < k ≤ n`, the slice with start
bound `-k` behaves on an array of length `n` exactly like the slice with
start bound `n - k` (same end bound and step). -/
theorem slice_negative_bound_equiv (k : Nat) (e : Int) (st : Nat) (elems : List Value)
    (h1 : 0 < k) (h2 : k ≤ elems.length) :
    PathInst.path (.arraySlice ⟨-(k : Int), e, st⟩) (.arr elems)
      = PathInst.path (.arraySlice ⟨(elems.length : Int) - (k : Int), e, st⟩) (.arr elems) := by
  simp only [PathInst.path, Value.as_array]
  apply process_congr
  · simp only [ArraySlice.start]
    split_ifs <;> first
      | rfl
      | omega
      | (congr 1; omega)
  · rfl
  · rfl

theorem slice_negative_bound_equiv_witness :
    PathInst.path (.arraySlice ⟨-(1 : Int), 2, 1⟩) (.arr [Value.num 1, Value.num 2])
      = PathInst.path (.arraySlice ⟨(2 : Int) - 1, 2, 1⟩) (.arr [Value.num 1, Value.num 2]) :=
  slice_negative_bound_equiv 1 2 1 [Value.num 1, Value.num 2] (by omega) (by simp)

/-- C1 counterexample: the claim "evaluation never fails, including
`step = 0`" is false — on the expression `Index("a", Slice(0, 0, 0))` and the
document `{"a": []}` both bounds normalize and `step_by(0)` panics (modelled
as `none`). -/
theorem evaluate_zero_step_panics :
    evaluate (.index "a" (.slice 0 0 0)) (.obj [("a", .arr [])]) = none := by
  simp [evaluate, process_path, process_path_index, PathInst.path, pathChain, pathFlat,
    Value.as_object, Value.as_array, mapGet, ArraySlice.process, ArraySlice.start,
    ArraySlice.endPos]

/-- C1 (amended): for every expression tree in which every `SliceIndex` has
`step ≥ 1` — over all combinations of Root, Field, IndexedField with
SingleIndex or SliceIndex, Sequence and Unrecognized nodes — and every
document, evaluation returns an ordered sequence: no panic and no error
channel; every shape mismatch degrades to an empty sub-result.  (With
`step = 0` the claim fails: see the counterexample.) -/
theorem evaluate_total_of_noZeroStep (expression : JsonPath) (document : Value)
    (h : noZeroStep expression = true) : (evaluate expression document).isSome :=
  path_isSome_of_noZeroP _ (noZeroP_process_path expression document h) document

theorem evaluate_total_of_noZeroStep_witness :
    noZeroStep (.index "a" (.slice 0 2 1)) = true ∧
    (evaluate (.index "a" (.slice 0 2 1)) (.obj [("a", .arr [Value.num 1, Value.num 2])])).isSome :=
  ⟨rfl, evaluate_total_of_noZeroStep _ _ rfl⟩
